import Mathlib

/-!
Verification development for the geo-inference tiling, window-bank and merge
subsystem (`geo_blocks.py`, `geo_inference.py`).

The sampler (`InferenceSampler`) is embedded over exact integer pixel
arithmetic: a raster footprint is its pixel height/width (the source derives
these by dividing the CRS-unit extent by the resolution, which cancels
exactly), patch and stride are pixel quantities, and `np.ceil` of an exact
quotient is modelled by integer ceiling division.  The window bank
(`generate_corner_windows`) and the merge canvas (`InferenceMerge`) are
embedded over the real numbers.
-/

namespace Geo

/-- A raster footprint, reduced to its pixel dimensions.  In the source a hit
carries CRS-unit bounds; `im_height`/`im_width` are recovered as
`round((maxy - miny) / res)` and `round((maxx - minx) / res)`, which is exactly
the pixel height/width. -/
structure Footprint where
  h : ℕ
  w : ℕ
deriving DecidableEq, Repr

/-- Sampler configuration: `size = (ph, pw)` and `stride = (sh, sw)` as
produced by `_to_tuple` (index 0 is the vertical axis, index 1 the
horizontal axis, matching `self.size[0]`/`self.size[1]` in the source). -/
structure Cfg where
  ph : ℕ
  pw : ℕ
  sh : ℕ
  sw : ℕ
deriving DecidableEq, Repr

/-- Model of `np.ceil(a / b)` for an exact integer quotient (`b` a positive pixel
stride): ceiling division, implemented with Euclidean division.
`npCeilDiv_eq_ceil` below proves it equal to the rational ceiling. -/
def npCeilDiv (a : ℤ) (b : ℕ) : ℤ := -((-a) / (b : ℤ))

/-- The classification of line 186–187 of `geo_blocks.py`: a hit is tiled
(kept in `self.hits`) iff its extent is at least one patch in both axes
(`maxx - minx >= size_in_crs_units[1]` and `maxy - miny >= size_in_crs_units[0]`,
which in pixel units is `pw ≤ w` and `ph ≤ h`). -/
def isTiled (S : Cfg) (f : Footprint) : Bool :=
  decide (S.pw ≤ f.w) && decide (S.ph ≤ f.h)

/-- The list `self.hits`: the tiled footprints, in intersection order. -/
def hits (S : Cfg) (fps : List Footprint) : List Footprint :=
  fps.filter (fun f => isTiled S f)

/-- The list `self.hits_small`: the small footprints, in intersection order. -/
def hits_small (S : Cfg) (fps : List Footprint) : List Footprint :=
  fps.filter (fun f => !(isTiled S f))

/-- Model of `torchgeo.samplers.utils.tile_to_chips` for a tiled hit, in pixel units:
`rows = ceil((h - ph) / sh) + 1`, `cols = ceil((w - pw) / sw) + 1`;
the sampler adds `rows * cols` to `self.length` per tiled hit. -/
def tile_to_chips (S : Cfg) (f : Footprint) : ℤ :=
  (npCeilDiv ((f.h : ℤ) - S.ph) S.sh + 1) * (npCeilDiv ((f.w : ℤ) - S.pw) S.sw + 1)

/-- The count `self.length` (lines 192–200): sum of `rows * cols` over tiled hits plus
one per small hit. -/
def samplerLength (S : Cfg) (fps : List Footprint) : ℤ :=
  ((hits S fps).map (tile_to_chips S)).sum + (hits_small S fps).length

/-- The loop of lines 202–210: `self.im_height`/`self.im_width` are overwritten
once per hit of `self.hits + self.hits_small` (both branches of the `if` store
the same values), so the pair left behind is the last hit's dimensions.
The accumulator starts at a junk value `(0, 0)` (the attribute is unset when
there is no hit, and then never read). -/
def imDims (S : Cfg) (fps : List Footprint) : ℕ × ℕ :=
  (hits S fps ++ hits_small S fps).foldl (fun _ f => (f.h, f.w)) (0, 0)

/-- Which blend window a yielded query carries: an entry of the 3×3 bank
(`self.windows[border_x, border_y]`) or the all-ones tensor of the small-asset
branch (`torch.ones((patch_size[0], patch_size[1]))`). -/
inductive WindowSel where
  | bank : Fin 3 → Fin 3 → WindowSel
  | ones : WindowSel
deriving DecidableEq, Repr

/-- One yielded query: `pixel_coords = (x_min, y_min, patch_size[1], patch_size[0])`
plus the selected window.  Origins are integers because the clamped origin
`im_dim - patch` may be negative when the stored image dimension is smaller
than the patch. -/
structure Tile where
  xMin : ℤ
  yMin : ℤ
  width : ℕ
  height : ℕ
  win : WindowSel
deriving DecidableEq, Repr

/-- Line 218: `y_steps = int(np.ceil((im_height - size[0]) / stride[0]) + 1)`. -/
def yStepsZ (S : Cfg) (d : ℕ × ℕ) : ℤ := npCeilDiv ((d.1 : ℤ) - S.ph) S.sh + 1

/-- Line 219: `x_steps = int(np.ceil((im_width - size[1]) / stride[1]) + 1)`. -/
def xStepsZ (S : Cfg) (d : ℕ × ℕ) : ℤ := npCeilDiv ((d.2 : ℤ) - S.pw) S.sw + 1

/-- Lines 221–224: the clamped vertical origin for step `y`. -/
def yMinAt (S : Cfg) (imH : ℕ) (y : ℕ) : ℤ :=
  if (imH : ℤ) < (S.sh : ℤ) * y + S.ph then (imH : ℤ) - S.ph else (S.sh : ℤ) * y

/-- Lines 226–229: the clamped horizontal origin for step `x`. -/
def xMinAt (S : Cfg) (imW : ℕ) (x : ℕ) : ℤ :=
  if (imW : ℤ) < (S.sw : ℤ) * x + S.pw then (imW : ℤ) - S.pw else (S.sw : ℤ) * x

/-- Lines 230–235: the border classification of a step index.  `border` starts
at 1, is set to 0 when the index is 0 and afterwards to 2 when the index is
`steps - 1` (the later assignment wins when both apply). -/
def borderIdx (i steps : ℕ) : Fin 3 :=
  if i = steps - 1 then 2 else if i = 0 then 0 else 1

/-- The queries yielded for one tiled hit (lines 217–241), driven by the
stored image dimensions `d` (`self.im_height`, `self.im_width`).
`range(n)` of a non-positive Python int is empty, matching `Int.toNat`. -/
def tilesForTiledHit (S : Cfg) (d : ℕ × ℕ) : List Tile :=
  (List.range (yStepsZ S d).toNat).flatMap (fun y =>
    (List.range (xStepsZ S d).toNat).map (fun x =>
      { xMin := xMinAt S d.2 x
        yMin := yMinAt S d.1 y
        width := S.pw
        height := S.ph
        win := .bank (borderIdx y (yStepsZ S d).toNat)
                     (borderIdx x (xStepsZ S d).toNat) }))

/-- The single query of the small-asset branch (lines 242–248):
origin `(0, 0)`, patch-sized, all-ones window. -/
def smallTile (S : Cfg) : Tile :=
  { xMin := 0, yMin := 0, width := S.pw, height := S.ph, win := .ones }

/-- The queries yielded for one hit of `self.hits + self.hits_small`:
the membership test `hit in self.hits` is exactly the tiled classification. -/
def tilesFor (S : Cfg) (fps : List Footprint) (f : Footprint) : List Tile :=
  if isTiled S f then tilesForTiledHit S (imDims S fps) else [smallTile S]

/-- The full iteration of `__iter__` (lines 216–248). -/
def sampledTiles (S : Cfg) (fps : List Footprint) : List Tile :=
  (hits S fps ++ hits_small S fps).flatMap (tilesFor S fps)

/-- Model of `scipy.signal.windows.hann(M=N, sym=False)`:
`w[n] = 0.5 - 0.5 * cos(2 * pi * n / N)` for `n = 0, ..., N - 1`. -/
noncomputable def hann (N n : ℕ) : ℝ :=
  1 / 2 - 1 / 2 * Real.cos (2 * Real.pi * n / N)

/-- Line 270: `step = window_size >> 1` (floor halving). -/
def halfStep (N : ℕ) : ℕ := N / 2

/-- Lines 271–272: the separable 2D window `window.T.dot(window)`, the center
entry of the bank: `W[i][j] = hann[i] * hann[j]`. -/
noncomputable def window (N i j : ℕ) : ℝ := hann N i * hann N j

/-- Line 273: `window_u = vstack([tile(window[step:step+1, :], (step, 1)), window[step:, :]])`
in index form (for even `N` the two blocks have `step` rows each): rows below
`step` are copies of row `step`, the rest is the center window. -/
noncomputable def window_u (N i j : ℕ) : ℝ :=
  if i < halfStep N then window N (halfStep N) j else window N i j

/-- Line 274: `window_b = vstack([window[:step, :], tile(window[step:step+1, :], (step, 1))])`
in index form for even `N`. -/
noncomputable def window_b (N i j : ℕ) : ℝ :=
  if i < halfStep N then window N i j else window N (halfStep N) j

/-- Line 275: `window_l = hstack([tile(window[:, step:step+1], (1, step)), window[:, step:]])`
in index form for even `N`. -/
noncomputable def window_l (N i j : ℕ) : ℝ :=
  if j < halfStep N then window N i (halfStep N) else window N i j

/-- Line 276: `window_r = hstack([window[:, :step], tile(window[:, step:step+1], (1, step))])`
in index form for even `N`. -/
noncomputable def window_r (N i j : ℕ) : ℝ :=
  if j < halfStep N then window N i j else window N i (halfStep N)

/-- Lines 277–278: `window_ul = block([[ones((step, step)), window_u[:step, step:]],
[window_l[step:, :step], window_l[step:, step:]]])` in index form for even `N`. -/
noncomputable def window_ul (N i j : ℕ) : ℝ :=
  if i < halfStep N then (if j < halfStep N then 1 else window_u N i j)
  else window_l N i j

/-- Lines 279–280: `window_ur = block([[window_u[:step, :step], ones((step, step))],
[window_r[step:, :step], window_r[step:, step:]]])` in index form for even `N`. -/
noncomputable def window_ur (N i j : ℕ) : ℝ :=
  if i < halfStep N then (if j < halfStep N then window_u N i j else 1)
  else window_r N i j

/-- Lines 281–282: `window_bl = block([[window_l[:step, :step], window_l[:step, step:]],
[ones((step, step)), window_b[step:, step:]]])` in index form for even `N`. -/
noncomputable def window_bl (N i j : ℕ) : ℝ :=
  if i < halfStep N then window_l N i j
  else (if j < halfStep N then 1 else window_b N i j)

/-- Lines 283–284: `window_br = block([[window_r[:step, :step], window_r[:step, step:]],
[window_b[step:, :step], ones((step, step))]])` in index form for even `N`. -/
noncomputable def window_br (N i j : ℕ) : ℝ :=
  if i < halfStep N then window_r N i j
  else (if j < halfStep N then window_b N i j else 1)

/-- Lines 285–287: the returned 3×3 bank
`[[window_ul, window_u, window_ur], [window_l, window, window_r],
[window_bl, window_b, window_br]]`, indexed by `(border_x, border_y)`. -/
noncomputable def generate_corner_windows (N : ℕ) (bi bj : Fin 3) : ℕ → ℕ → ℝ :=
  if bi = 0 then
    (if bj = 0 then window_ul N else if bj = 1 then window_u N else window_ur N)
  else if bi = 1 then
    (if bj = 0 then window_l N else if bj = 1 then window N else window_r N)
  else
    (if bj = 0 then window_bl N else if bj = 1 then window_b N else window_br N)

/-- The blend-weight array a yielded query's window selector stands for:
`self.windows` is built from `patch_size[0]` (line 179), and the small-asset
branch uses `torch.ones` (line 244). -/
noncomputable def windowOfSel (S : Cfg) : WindowSel → ℕ → ℕ → ℝ
  | .bank bi bj => generate_corner_windows S.ph bi bj
  | .ones => fun _ _ => 1

/-- The state of `InferenceMerge` (lines 318–323): a `classes × H × W`
accumulator and a `1 × H × W` normalization mask.  The arrays are total
functions on indices; bounds are treated separately (`writesWithin`). -/
structure MergeState (K : ℕ) where
  image : Fin K → ℕ → ℕ → ℝ
  norm_mask : ℕ → ℕ → ℝ

/-- Lines 322–323: `image = np.zeros(...)`, `norm_mask = np.ones(...)`. -/
def initMerge (K : ℕ) : MergeState K :=
  { image := fun _ _ _ => 0, norm_mask := fun _ _ => 1 }

/-- Model of `F.softmax(output, dim=0)` at one pixel: scores rescaled by
`exp` and normalized to sum to 1 across the class axis. -/
noncomputable def softmax {K : ℕ} (x : Fin K → ℝ) (k : Fin K) : ℝ :=
  Real.exp (x k) / ∑ j, Real.exp (x j)

/-- One iteration of `merge_on_cpu` (lines 345–348): the softmaxed, windowed
tile is added into `image[:, y : y + ph, x : x + pw]` and the window into
`norm_mask` on the same region. -/
noncomputable def merge_on_cpu {K : ℕ} (st : MergeState K)
    (output : Fin K → ℕ → ℕ → ℝ) (win : ℕ → ℕ → ℝ)
    (x y pw ph : ℕ) : MergeState K :=
  { image := fun k i j =>
      if y ≤ i ∧ i < y + ph ∧ x ≤ j ∧ j < x + pw then
        st.image k i j + softmax (fun c => output c (i - y) (j - x)) k * win (i - y) (j - x)
      else st.image k i j
    norm_mask := fun i j =>
      if y ≤ i ∧ i < y + ph ∧ x ≤ j ∧ j < x + pw then
        st.norm_mask i j + win (i - y) (j - x)
      else st.norm_mask i j }

/-- One batch element passed to `merge_on_cpu`: a tile's raw class scores,
its blend window and its pixel coordinates. -/
structure MergeItem (K : ℕ) where
  output : Fin K → ℕ → ℕ → ℝ
  window : ℕ → ℕ → ℝ
  x : ℕ
  y : ℕ
  pw : ℕ
  ph : ℕ

/-- A run of `merge_on_cpu` calls (the loop of line 345 over batches). -/
noncomputable def mergeBatch {K : ℕ} (st : MergeState K) (items : List (MergeItem K)) :
    MergeState K :=
  items.foldl (fun s it => merge_on_cpu s it.output it.window it.x it.y it.pw it.ph) st

/-- Model of `np.argmax` along the class axis: the first index attaining the
maximum (a later index replaces the current best only when strictly larger). -/
noncomputable def np_argmax {K : ℕ} (v : Fin (K + 1) → ℝ) : Fin (K + 1) :=
  (List.finRange (K + 1)).foldl (fun best i => if v best < v i then i else best) 0

/-- The label computed by `save_as_tiff` (lines 361–362):
`image /= norm_mask` followed by `argmax(image, axis=0)`. -/
noncomputable def save_as_tiff_label {K : ℕ} (st : MergeState (K + 1)) (i j : ℕ) :
    Fin (K + 1) :=
  np_argmax (fun k => st.image k i j / st.norm_mask i j)

/-- Line 79 of `geo_inference.py`: `h_padded = roi_height + patch_size`. -/
def canvas_height (p : ℕ) (f : Footprint) : ℕ := f.h + p

/-- Line 79 of `geo_inference.py`: `w_padded = roi_width + patch_size`. -/
def canvas_width (p : ℕ) (f : Footprint) : ℕ := f.w + p

/-- A tile's merge write region `[yMin, yMin + height) × [xMin, xMin + width)`
lies inside an `H × W` canvas. -/
def writesWithin (H W : ℕ) (t : Tile) : Prop :=
  0 ≤ t.yMin ∧ 0 ≤ t.xMin ∧ t.yMin + t.height ≤ H ∧ t.xMin + t.width ≤ W

/-! ### Helper lemmas -/

/-- Sanity: `npCeilDiv` is the ceiling of the exact rational quotient, i.e.
what `np.ceil` computes on the (here exact) float quotient. -/
theorem npCeilDiv_eq_ceil (a : ℤ) (b : ℕ) :
    npCeilDiv a b = ⌈(a : ℚ) / (b : ℚ)⌉ := by
  have h : ((-a : ℤ) : ℚ) / ((b : ℕ) : ℚ) = -((a : ℚ) / (b : ℚ)) := by
    push_cast
    ring
  rw [npCeilDiv, ← Rat.floor_intCast_div_natCast (-a) b, h, Int.floor_neg]
  ring

theorem npCeilDiv_nonneg (a : ℤ) (b : ℕ) (ha : 0 ≤ a) : 0 ≤ npCeilDiv a b := by
  rw [npCeilDiv_eq_ceil]
  exact Int.ceil_nonneg (div_nonneg (by exact_mod_cast ha) (by positivity))

theorem isTiled_of_mem_hits {S : Cfg} {fps : List Footprint} {f : Footprint}
    (h : f ∈ hits S fps) : isTiled S f = true :=
  (List.mem_filter.mp h).2

theorem isTiled_of_mem_hits_small {S : Cfg} {fps : List Footprint} {f : Footprint}
    (h : f ∈ hits_small S fps) : isTiled S f = false := by
  have h2 := (List.mem_filter.mp h).2
  simpa using h2

theorem isTiled_dims {S : Cfg} {f : Footprint} (h : isTiled S f = true) :
    S.ph ≤ f.h ∧ S.pw ≤ f.w := by
  simp only [isTiled, Bool.and_eq_true, decide_eq_true_eq] at h
  exact ⟨h.2, h.1⟩

theorem length_tilesForTiledHit (S : Cfg) (d : ℕ × ℕ) :
    (tilesForTiledHit S d).length = (yStepsZ S d).toNat * (xStepsZ S d).toNat := by
  simp [tilesForTiledHit, List.length_flatMap, Function.comp_def, List.map_const',
        List.sum_replicate, smul_eq_mul]

theorem mem_tilesForTiledHit {S : Cfg} {d : ℕ × ℕ} {t : Tile}
    (ht : t ∈ tilesForTiledHit S d) :
    t.width = S.pw ∧ t.height = S.ph ∧ (∃ bi bj, t.win = WindowSel.bank bi bj) ∧
    t.yMin + S.ph ≤ (d.1 : ℤ) ∧ t.xMin + S.pw ≤ (d.2 : ℤ) ∧
    (S.ph ≤ d.1 → 0 ≤ t.yMin) ∧ (S.pw ≤ d.2 → 0 ≤ t.xMin) := by
  simp only [tilesForTiledHit, List.mem_flatMap, List.mem_map, List.mem_range] at ht
  obtain ⟨y, -, x, -, rfl⟩ := ht
  have hy0 : (0 : ℤ) ≤ (S.sh : ℤ) * (y : ℤ) := by positivity
  have hx0 : (0 : ℤ) ≤ (S.sw : ℤ) * (x : ℤ) := by positivity
  refine ⟨rfl, rfl, ⟨_, _, rfl⟩, ?_, ?_, ?_, ?_⟩
  · show yMinAt S d.1 y + S.ph ≤ (d.1 : ℤ)
    unfold yMinAt
    split_ifs with h
    · linarith
    · linarith [not_lt.mp h]
  · show xMinAt S d.2 x + S.pw ≤ (d.2 : ℤ)
    unfold xMinAt
    split_ifs with h
    · linarith
    · linarith [not_lt.mp h]
  · intro hp
    show 0 ≤ yMinAt S d.1 y
    have hp' : (S.ph : ℤ) ≤ (d.1 : ℤ) := by exact_mod_cast hp
    unfold yMinAt
    split_ifs with h
    · linarith
    · exact hy0
  · intro hp
    show 0 ≤ xMinAt S d.2 x
    have hp' : (S.pw : ℤ) ≤ (d.2 : ℤ) := by exact_mod_cast hp
    unfold xMinAt
    split_ifs with h
    · linarith
    · exact hx0

theorem foldl_overwrite : ∀ (l : List Footprint) (a : ℕ × ℕ) (f : Footprint),
    l.getLast? = some f → l.foldl (fun _ g => (g.h, g.w)) a = (f.h, f.w)
  | [], _, _, h => by simp at h
  | [x], a, f, h => by
      simp only [List.getLast?_singleton, Option.some.injEq] at h
      simp [List.foldl, ← h]
  | x :: y :: l, a, f, h => by
      rw [List.getLast?_cons_cons] at h
      simpa [List.foldl] using foldl_overwrite (y :: l) (x.h, x.w) f h

theorem tilesFor_length_of_tiled (S : Cfg) (fps : List Footprint) (f : Footprint)
    (hf : isTiled S f = true) (hd : (f.h, f.w) = imDims S fps) :
    ((tilesFor S fps f).length : ℤ) = tile_to_chips S f := by
  obtain ⟨hph, hpw⟩ := isTiled_dims hf
  rw [tilesFor, if_pos hf, ← hd, length_tilesForTiledHit]
  have h1 : 0 ≤ yStepsZ S (f.h, f.w) := by
    have h := npCeilDiv_nonneg ((f.h : ℤ) - S.ph) S.sh (by omega)
    show 0 ≤ npCeilDiv ((f.h : ℤ) - S.ph) S.sh + 1
    omega
  have h2 : 0 ≤ xStepsZ S (f.h, f.w) := by
    have h := npCeilDiv_nonneg ((f.w : ℤ) - S.pw) S.sw (by omega)
    show 0 ≤ npCeilDiv ((f.w : ℤ) - S.pw) S.sw + 1
    omega
  push_cast [Int.toNat_of_nonneg h1, Int.toNat_of_nonneg h2]
  unfold yStepsZ xStepsZ tile_to_chips
  ring

theorem imDims_single (S : Cfg) (f : Footprint) : imDims S [f] = (f.h, f.w) := by
  rcases hb : isTiled S f <;>
    simp [imDims, hits, hits_small, List.filter_cons, hb]

/-! ### Claims -/

/-- **C1**, counterexample: with patch `(2,2)`, stride `(1,1)` and the two
tiled footprints `3×3` and `2×2`, `self.length` is `4 + 1 = 5` but the
iteration yields only `1 + 1 = 2` queries, because both hits are tiled with
the dimensions of the *last* footprint (`2×2`).  So the length contract does
not hold for every sampler over valid patch, stride and footprints. -/
theorem c1_counterexample :
    samplerLength ⟨2, 2, 1, 1⟩ [⟨3, 3⟩, ⟨2, 2⟩] ≠
      ((sampledTiles ⟨2, 2, 1, 1⟩ [⟨3, 3⟩, ⟨2, 2⟩]).length : ℤ) := by decide

/-- **C1** (amended): for every sampler over valid (positive) strides whose
tiled footprints all have the pixel dimensions stored in
`im_height`/`im_width` (in particular, every sampler over a single
footprint), the value of `__len__` — per-footprint `rows * cols` for tiled
footprints plus 1 per small footprint, computed without materializing the
sequence — exactly equals the number of queries `__iter__` yields. -/
theorem c1_length_matches_iteration (S : Cfg) (fps : List Footprint)
    (hsh : 0 < S.sh) (hsw : 0 < S.sw)
    (hd : ∀ f ∈ hits S fps, (f.h, f.w) = imDims S fps) :
    samplerLength S fps = ((sampledTiles S fps).length : ℤ) := by
  unfold samplerLength sampledTiles
  rw [List.flatMap_append, List.length_append]
  have hsmall : ((hits_small S fps).flatMap (tilesFor S fps)).length
      = (hits_small S fps).length := by
    rw [List.length_flatMap]
    have h1 : ∀ f ∈ hits_small S fps, (List.length ∘ tilesFor S fps) f = 1 := by
      intro f hf
      simp [tilesFor, isTiled_of_mem_hits_small hf]
    rw [List.map_congr_left h1]
    simp [List.map_const', List.sum_replicate]
  have hhits : ((((hits S fps).flatMap (tilesFor S fps)).length : ℕ) : ℤ)
      = ((hits S fps).map (tile_to_chips S)).sum := by
    rw [List.length_flatMap, Nat.cast_list_sum, List.map_map]
    refine congrArg List.sum (List.map_congr_left ?_)
    intro f hf
    exact tilesFor_length_of_tiled S fps f (isTiled_of_mem_hits hf) (hd f hf)
  push_cast [← hhits, hsmall]
  ring

theorem c1_length_matches_iteration_witness :
    0 < 1 ∧
    samplerLength ⟨2, 2, 1, 1⟩ [⟨3, 3⟩] =
      ((sampledTiles ⟨2, 2, 1, 1⟩ [⟨3, 3⟩]).length : ℤ) :=
  ⟨by decide,
    c1_length_matches_iteration ⟨2, 2, 1, 1⟩ [⟨3, 3⟩]
      (by decide) (by decide) (by decide)⟩

/-- **C2**: every query yielded for a non-small footprint (its window is a
bank entry, never the all-ones tensor) has its origin clamped so that
`origin + patch_size ≤ image_dimension` on both axes, where the image
dimensions are the sampler's stored `im_height`/`im_width`. -/
theorem c2_boundary_clamping (S : Cfg) (fps : List Footprint) (t : Tile)
    (ht : t ∈ sampledTiles S fps) (hw : t.win ≠ WindowSel.ones) :
    t.yMin + S.ph ≤ ((imDims S fps).1 : ℤ) ∧
    t.xMin + S.pw ≤ ((imDims S fps).2 : ℤ) := by
  simp only [sampledTiles, List.mem_flatMap] at ht
  obtain ⟨f, hf, htf⟩ := ht
  by_cases hb : isTiled S f = true
  · rw [tilesFor, if_pos hb] at htf
    have h := mem_tilesForTiledHit htf
    exact ⟨h.2.2.2.1, h.2.2.2.2.1⟩
  · rw [tilesFor, if_neg hb] at htf
    simp only [List.mem_singleton] at htf
    subst htf
    exact absurd rfl hw

theorem c2_boundary_clamping_witness :
    (⟨0, 0, 2, 2, .bank 0 0⟩ : Tile) ∈ sampledTiles ⟨2, 2, 1, 1⟩ [⟨3, 3⟩] ∧
    (⟨0, 0, 2, 2, .bank 0 0⟩ : Tile).win ≠ WindowSel.ones ∧
    ((⟨0, 0, 2, 2, .bank 0 0⟩ : Tile).yMin + (⟨2, 2, 1, 1⟩ : Cfg).ph ≤
        ((imDims ⟨2, 2, 1, 1⟩ [⟨3, 3⟩]).1 : ℤ) ∧
      (⟨0, 0, 2, 2, .bank 0 0⟩ : Tile).xMin + (⟨2, 2, 1, 1⟩ : Cfg).pw ≤
        ((imDims ⟨2, 2, 1, 1⟩ [⟨3, 3⟩]).2 : ℤ)) :=
  ⟨by decide, by decide,
    c2_boundary_clamping ⟨2, 2, 1, 1⟩ [⟨3, 3⟩] _ (by decide) (by decide)⟩

/-- **C4**: for a `1000×1000` asset with patch 256 and stride 128 the sampler
computes `ceil((1000-256)/128) + 1 = 7` steps per axis, reports length 49,
yields exactly 49 queries, and every last-row (`border_x = 2`) and
last-column (`border_y = 2`) query has origin `1000 - 256 = 744` on the
corresponding axis (7 tiles each share `y_min = 744` resp. `x_min = 744`). -/
theorem c4_1000_scenario :
    yStepsZ ⟨256, 256, 128, 128⟩
        (imDims ⟨256, 256, 128, 128⟩ [⟨1000, 1000⟩]) = 7 ∧
    xStepsZ ⟨256, 256, 128, 128⟩
        (imDims ⟨256, 256, 128, 128⟩ [⟨1000, 1000⟩]) = 7 ∧
    samplerLength ⟨256, 256, 128, 128⟩ [⟨1000, 1000⟩] = 49 ∧
    (sampledTiles ⟨256, 256, 128, 128⟩ [⟨1000, 1000⟩]).length = 49 ∧
    (sampledTiles ⟨256, 256, 128, 128⟩ [⟨1000, 1000⟩]).all (fun t =>
      match t.win with
      | .bank bi bj =>
          (!(decide (bi = (2 : Fin 3))) || decide (t.yMin = 744)) &&
          (!(decide (bj = (2 : Fin 3))) || decide (t.xMin = 744))
      | .ones => false) = true ∧
    (sampledTiles ⟨256, 256, 128, 128⟩ [⟨1000, 1000⟩]).countP
      (fun t => decide (t.yMin = 744)) = 7 ∧
    (sampledTiles ⟨256, 256, 128, 128⟩ [⟨1000, 1000⟩]).countP
      (fun t => decide (t.xMin = 744)) = 7 := by decide

/-- **C5**: a footprint smaller than one patch in either axis contributes
exactly one query, with pixel origin `(0, 0)`, width `patch_size[1]` and
height `patch_size[0]`, and the all-ones blend weight. -/
theorem c5_small_asset_single_tile (S : Cfg) (fps : List Footprint) (f : Footprint)
    (hf : f ∈ fps) (hs : isTiled S f = false) :
    tilesFor S fps f = [smallTile S] ∧
    (smallTile S).xMin = 0 ∧ (smallTile S).yMin = 0 ∧
    (smallTile S).width = S.pw ∧ (smallTile S).height = S.ph ∧
    ∀ i j : ℕ, windowOfSel S (smallTile S).win i j = 1 := by
  refine ⟨?_, rfl, rfl, rfl, rfl, fun i j => rfl⟩
  rw [tilesFor, if_neg (by simp [hs])]

theorem c5_small_asset_single_tile_witness :
    (⟨2, 3⟩ : Footprint) ∈ [(⟨2, 3⟩ : Footprint)] ∧
    isTiled ⟨4, 4, 2, 2⟩ ⟨2, 3⟩ = false ∧
    tilesFor ⟨4, 4, 2, 2⟩ [⟨2, 3⟩] ⟨2, 3⟩ = [smallTile ⟨4, 4, 2, 2⟩] :=
  ⟨by decide, by decide,
    (c5_small_asset_single_tile ⟨4, 4, 2, 2⟩ [⟨2, 3⟩] ⟨2, 3⟩
      (by decide) (by decide)).1⟩

/-- **C9**: with the canvas allocated at `image dimensions + one patch size of
padding per axis` (`h_padded = roi_height + patch_size`,
`w_padded = roi_width + patch_size`), every query the sampler yields for the
raster — including the unclamped small-asset query at origin `(0, 0)` —
writes entirely within the canvas bounds. -/
theorem c9_merge_writes_in_canvas (p s : ℕ) (f : Footprint) (hs : 0 < s)
    (t : Tile) (ht : t ∈ sampledTiles ⟨p, p, s, s⟩ [f]) :
    writesWithin (canvas_height p f) (canvas_width p f) t := by
  simp only [sampledTiles, List.mem_flatMap] at ht
  obtain ⟨g, hg, htg⟩ := ht
  have hgf : g = f := by
    rcases List.mem_append.mp hg with h | h
    · simpa using (List.mem_filter.mp h).1
    · simpa using (List.mem_filter.mp h).1
  subst hgf
  by_cases hb : isTiled ⟨p, p, s, s⟩ g = true
  · rw [tilesFor, if_pos hb, imDims_single] at htg
    obtain ⟨hpd, hpw⟩ := isTiled_dims hb
    have h := mem_tilesForTiledHit htg
    refine ⟨h.2.2.2.2.2.1 hpd, h.2.2.2.2.2.2 hpw, ?_, ?_⟩
    · rw [h.2.1]
      have := h.2.2.2.1
      unfold canvas_height
      push_cast
      omega
    · rw [h.1]
      have := h.2.2.2.2.1
      unfold canvas_width
      push_cast
      omega
  · rw [tilesFor, if_neg hb] at htg
    simp only [List.mem_singleton] at htg
    subst htg
    refine ⟨le_refl 0, le_refl 0, ?_, ?_⟩ <;>
      simp [smallTile, canvas_height, canvas_width]

theorem c9_merge_writes_in_canvas_witness :
    0 < 1 ∧
    (⟨0, 0, 2, 2, .bank 0 0⟩ : Tile) ∈ sampledTiles ⟨2, 2, 1, 1⟩ [⟨3, 3⟩] ∧
    writesWithin (canvas_height 2 ⟨3, 3⟩) (canvas_width 2 ⟨3, 3⟩)
      ⟨0, 0, 2, 2, .bank 0 0⟩ :=
  ⟨by decide, by decide,
    c9_merge_writes_in_canvas 2 1 ⟨3, 3⟩ (by decide) _ (by decide)⟩

/-- **C10**: the sampler keeps a single `im_height`/`im_width` pair,
overwritten once per footprint during construction, so it ends up holding the
dimensions of the last footprint of `hits + hits_small`; the tiling grid of
*every* tiled footprint is computed from that stored pair; and concretely,
for footprints `[3×3, 2×2]` with patch 2 / stride 1 the `3×3` footprint's
grid is not the grid its own dimensions would give. -/
theorem c10_grid_uses_last_footprint_dims :
    (∀ (S : Cfg) (fps : List Footprint) (f : Footprint),
        (hits S fps ++ hits_small S fps).getLast? = some f →
        imDims S fps = (f.h, f.w)) ∧
    (∀ (S : Cfg) (fps : List Footprint) (f : Footprint), isTiled S f = true →
        tilesFor S fps f = tilesForTiledHit S (imDims S fps)) ∧
    tilesFor ⟨2, 2, 1, 1⟩ [⟨3, 3⟩, ⟨2, 2⟩] ⟨3, 3⟩ ≠
      tilesForTiledHit ⟨2, 2, 1, 1⟩ (3, 3) :=
  ⟨fun _ _ _ h => foldl_overwrite _ _ _ h,
   fun S fps f hf => by rw [tilesFor, if_pos hf],
   by decide⟩

theorem c10_grid_uses_last_footprint_dims_witness :
    (hits ⟨2, 2, 1, 1⟩ [⟨3, 3⟩, ⟨2, 2⟩] ++
        hits_small ⟨2, 2, 1, 1⟩ [⟨3, 3⟩, ⟨2, 2⟩]).getLast? =
      some ⟨2, 2⟩ ∧
    imDims ⟨2, 2, 1, 1⟩ [⟨3, 3⟩, ⟨2, 2⟩] = (2, 2) ∧
    tilesFor ⟨2, 2, 1, 1⟩ [⟨3, 3⟩, ⟨2, 2⟩] ⟨3, 3⟩ =
      tilesForTiledHit ⟨2, 2, 1, 1⟩
        (imDims ⟨2, 2, 1, 1⟩ [⟨3, 3⟩, ⟨2, 2⟩]) :=
  ⟨by decide,
   c10_grid_uses_last_footprint_dims.1 ⟨2, 2, 1, 1⟩ [⟨3, 3⟩, ⟨2, 2⟩] ⟨2, 2⟩
     (by decide),
   c10_grid_uses_last_footprint_dims.2.1 ⟨2, 2, 1, 1⟩ [⟨3, 3⟩, ⟨2, 2⟩] ⟨3, 3⟩
     (by decide)⟩

/-! ### Window bank -/

theorem gcw_00 (N : ℕ) : generate_corner_windows N 0 0 = window_ul N := rfl

theorem gcw_01 (N : ℕ) : generate_corner_windows N 0 1 = window_u N := rfl

theorem gcw_02 (N : ℕ) : generate_corner_windows N 0 2 = window_ur N := rfl

theorem gcw_10 (N : ℕ) : generate_corner_windows N 1 0 = window_l N := rfl

theorem gcw_11 (N : ℕ) : generate_corner_windows N 1 1 = window N := rfl

theorem gcw_12 (N : ℕ) : generate_corner_windows N 1 2 = window_r N := rfl

theorem gcw_20 (N : ℕ) : generate_corner_windows N 2 0 = window_bl N := rfl

theorem gcw_21 (N : ℕ) : generate_corner_windows N 2 1 = window_b N := rfl

theorem gcw_22 (N : ℕ) : generate_corner_windows N 2 2 = window_br N := rfl

/-- **C3**: for patch size `N = 2k`, every corner entry of the bank is exactly
1 on the `k × k` block at its true corner, and every edge entry is, on the
outward-facing half of its axis, the constant plateau `hann(k)` times the 1D
taper on the other axis (so constant along the outward axis, at the taper's
midpoint value), while it agrees with the tapering center window on the
inward-facing half. -/
theorem c3_window_bank (k i j : ℕ) :
    (i < k → j < k → generate_corner_windows (2 * k) 0 0 i j = 1) ∧
    (i < k → k ≤ j → generate_corner_windows (2 * k) 0 2 i j = 1) ∧
    (k ≤ i → j < k → generate_corner_windows (2 * k) 2 0 i j = 1) ∧
    (k ≤ i → k ≤ j → generate_corner_windows (2 * k) 2 2 i j = 1) ∧
    (i < k → generate_corner_windows (2 * k) 0 1 i j
      = hann (2 * k) k * hann (2 * k) j) ∧
    (k ≤ i → generate_corner_windows (2 * k) 0 1 i j = window (2 * k) i j) ∧
    (k ≤ i → generate_corner_windows (2 * k) 2 1 i j
      = hann (2 * k) k * hann (2 * k) j) ∧
    (i < k → generate_corner_windows (2 * k) 2 1 i j = window (2 * k) i j) ∧
    (j < k → generate_corner_windows (2 * k) 1 0 i j
      = hann (2 * k) i * hann (2 * k) k) ∧
    (k ≤ j → generate_corner_windows (2 * k) 1 0 i j = window (2 * k) i j) ∧
    (k ≤ j → generate_corner_windows (2 * k) 1 2 i j
      = hann (2 * k) i * hann (2 * k) k) ∧
    (j < k → generate_corner_windows (2 * k) 1 2 i j = window (2 * k) i j) := by
  have hk : halfStep (2 * k) = k := Nat.mul_div_cancel_left k (by norm_num)
  refine ⟨?_, ?_, ?_, ?_, ?_, ?_, ?_, ?_, ?_, ?_, ?_, ?_⟩
  · intro h1 h2
    rw [gcw_00]
    unfold window_ul
    rw [hk, if_pos h1, if_pos h2]
  · intro h1 h2
    rw [gcw_02]
    unfold window_ur
    rw [hk, if_pos h1, if_neg (not_lt.mpr h2)]
  · intro h1 h2
    rw [gcw_20]
    unfold window_bl
    rw [hk, if_neg (not_lt.mpr h1), if_pos h2]
  · intro h1 h2
    rw [gcw_22]
    unfold window_br
    rw [hk, if_neg (not_lt.mpr h1), if_neg (not_lt.mpr h2)]
  · intro h1
    rw [gcw_01]
    unfold window_u
    rw [hk, if_pos h1]
    rfl
  · intro h1
    rw [gcw_01]
    unfold window_u
    rw [hk, if_neg (not_lt.mpr h1)]
  · intro h1
    rw [gcw_21]
    unfold window_b
    rw [hk, if_neg (not_lt.mpr h1)]
    rfl
  · intro h1
    rw [gcw_21]
    unfold window_b
    rw [hk, if_pos h1]
  · intro h1
    rw [gcw_10]
    unfold window_l
    rw [hk, if_pos h1]
    rfl
  · intro h1
    rw [gcw_10]
    unfold window_l
    rw [hk, if_neg (not_lt.mpr h1)]
  · intro h1
    rw [gcw_12]
    unfold window_r
    rw [hk, if_neg (not_lt.mpr h1)]
    rfl
  · intro h1
    rw [gcw_12]
    unfold window_r
    rw [hk, if_pos h1]

theorem c3_window_bank_witness :
    0 < 1 ∧ generate_corner_windows 2 0 0 0 0 = 1 :=
  ⟨by decide, (c3_window_bank 1 0 0).1 (by decide) (by decide)⟩

theorem hann_zero (N : ℕ) : hann N 0 = 0 := by
  simp [hann, Real.cos_zero]

theorem hann_four_three : hann 4 3 = 1 / 2 := by
  unfold hann
  have harg : 2 * Real.pi * ((3 : ℕ) : ℝ) / ((4 : ℕ) : ℝ)
      = Real.pi + Real.pi / 2 := by
    push_cast
    ring
  rw [harg, Real.cos_add, Real.cos_pi, Real.sin_pi, Real.cos_pi_div_two,
      Real.sin_pi_div_two]
  norm_num

/-- **C6**, counterexample: reversing both axes (index `i ↦ N - 1 - i`) does
*not* leave the center entry unchanged: for `N = 4`, the entry at `(0, 0)` is
`hann(0)² = 0` while its reversed image at `(3, 3)` is `hann(3)² = 1/4`. The
non-symmetric taper has its zero only at index 0. -/
theorem c6_counterexample :
    window 4 0 0 ≠ window 4 (4 - 1 - 0) (4 - 1 - 0) := by
  show window 4 0 0 ≠ window 4 3 3
  unfold window
  rw [hann_zero, hann_four_three]
  norm_num

theorem hann_reflect (N i : ℕ) (hi : i < N) :
    hann N ((N - i) % N) = hann N i := by
  rcases Nat.eq_zero_or_pos i with rfl | hpos
  · simp [Nat.mod_self]
  · have h1 : (N - i) % N = N - i := Nat.mod_eq_of_lt (by omega)
    rw [h1]
    unfold hann
    have hN : (0 : ℝ) < (N : ℝ) := by
      have : 0 < N := by omega
      exact_mod_cast this
    have hcast : ((N - i : ℕ) : ℝ) = (N : ℝ) - (i : ℝ) :=
      Nat.cast_sub (le_of_lt hi)
    have harg : 2 * Real.pi * ((N : ℝ) - (i : ℝ)) / (N : ℝ)
        = 2 * Real.pi - 2 * Real.pi * (i : ℝ) / (N : ℝ) := by
      field_simp
      ring
    rw [hcast, harg, Real.cos_two_pi_sub]

/-- **C6** (amended): the center entry of the bank is invariant under the
*periodic* 180° rotation `i ↦ (N - i) mod N` on both axes (the non-symmetric
Hann taper satisfies `hann((N - i) mod N) = hann(i)`); plain reversal
`i ↦ N - 1 - i` does not fix it (see the counterexample). -/
theorem c6_rotation (N i j : ℕ) (hi : i < N) (hj : j < N) :
    window N i j = window N ((N - i) % N) ((N - j) % N) := by
  unfold window
  rw [hann_reflect N i hi, hann_reflect N j hj]

theorem c6_rotation_witness :
    1 < 4 ∧ window 4 1 1 = window 4 3 3 :=
  ⟨by norm_num, c6_rotation 4 1 1 (by norm_num) (by norm_num)⟩

/-! ### Merge canvas -/

theorem hann_nonneg (N n : ℕ) : 0 ≤ hann N n := by
  unfold hann
  have h := Real.cos_le_one (2 * Real.pi * n / N)
  linarith

theorem window_nonneg (N i j : ℕ) : 0 ≤ window N i j :=
  mul_nonneg (hann_nonneg N i) (hann_nonneg N j)

theorem gcw_nonneg (N : ℕ) (bi bj : Fin 3) (a b : ℕ) :
    0 ≤ generate_corner_windows N bi bj a b := by
  unfold generate_corner_windows window_ul window_ur window_bl window_br
    window_u window_b window_l window_r
  split_ifs
  all_goals try dsimp only
  all_goals try split_ifs
  all_goals try norm_num
  all_goals exact window_nonneg _ _ _

theorem windowOfSel_nonneg (S : Cfg) (sel : WindowSel) (a b : ℕ) :
    0 ≤ windowOfSel S sel a b := by
  cases sel with
  | ones => norm_num [windowOfSel]
  | bank bi bj => exact gcw_nonneg S.ph bi bj a b

theorem merge_image_at {K : ℕ} (st : MergeState K) (output : Fin K → ℕ → ℕ → ℝ)
    (win : ℕ → ℕ → ℝ) (x y pw ph : ℕ) (k : Fin K) (i j : ℕ)
    (h : y ≤ i ∧ i < y + ph ∧ x ≤ j ∧ j < x + pw) :
    (merge_on_cpu st output win x y pw ph).image k i j
      = st.image k i j
        + softmax (fun c => output c (i - y) (j - x)) k * win (i - y) (j - x) := by
  unfold merge_on_cpu
  dsimp only
  rw [if_pos h]

theorem merge_norm_at {K : ℕ} (st : MergeState K) (output : Fin K → ℕ → ℕ → ℝ)
    (win : ℕ → ℕ → ℝ) (x y pw ph : ℕ) (i j : ℕ)
    (h : y ≤ i ∧ i < y + ph ∧ x ≤ j ∧ j < x + pw) :
    (merge_on_cpu st output win x y pw ph).norm_mask i j
      = st.norm_mask i j + win (i - y) (j - x) := by
  unfold merge_on_cpu
  dsimp only
  rw [if_pos h]

theorem merge_image_out {K : ℕ} (st : MergeState K) (output : Fin K → ℕ → ℕ → ℝ)
    (win : ℕ → ℕ → ℝ) (x y pw ph : ℕ) (k : Fin K) (i j : ℕ)
    (h : ¬(y ≤ i ∧ i < y + ph ∧ x ≤ j ∧ j < x + pw)) :
    (merge_on_cpu st output win x y pw ph).image k i j = st.image k i j := by
  unfold merge_on_cpu
  dsimp only
  rw [if_neg h]

theorem merge_norm_out {K : ℕ} (st : MergeState K) (output : Fin K → ℕ → ℕ → ℝ)
    (win : ℕ → ℕ → ℝ) (x y pw ph : ℕ) (i j : ℕ)
    (h : ¬(y ≤ i ∧ i < y + ph ∧ x ≤ j ∧ j < x + pw)) :
    (merge_on_cpu st output win x y pw ph).norm_mask i j = st.norm_mask i j := by
  unfold merge_on_cpu
  dsimp only
  rw [if_neg h]

theorem np_argmax_two (v : Fin 2 → ℝ) :
    np_argmax v = if v 0 < v 1 then 1 else 0 := by
  unfold np_argmax
  have h : List.finRange 2 = [0, 1] := by decide
  rw [h]
  simp only [List.foldl_cons, List.foldl_nil, ite_self]

theorem softmax_two (x : Fin 2 → ℝ) (k : Fin 2) :
    softmax x k = Real.exp (x k) / (Real.exp (x 0) + Real.exp (x 1)) := by
  unfold softmax
  rw [Fin.sum_univ_two]

theorem foldl_argmax_congr {K : ℕ} (v u : Fin (K + 1) → ℝ)
    (h : ∀ p q, v p < v q ↔ u p < u q) :
    ∀ (l : List (Fin (K + 1))) (b : Fin (K + 1)),
      l.foldl (fun best i => if v best < v i then i else best) b
        = l.foldl (fun best i => if u best < u i then i else best) b
  | [], _ => rfl
  | i :: l, b => by
      simp only [List.foldl_cons]
      by_cases hvb : v b < v i
      · rw [if_pos hvb, if_pos ((h b i).mp hvb)]
        exact foldl_argmax_congr v u h l i
      · rw [if_neg hvb, if_neg fun hu => hvb ((h b i).mpr hu)]
        exact foldl_argmax_congr v u h l b

theorem np_argmax_congr {K : ℕ} (v u : Fin (K + 1) → ℝ)
    (h : ∀ p q, v p < v q ↔ u p < u q) : np_argmax v = np_argmax u :=
  foldl_argmax_congr v u h _ _

theorem softmax_lt_iff {K : ℕ} (x : Fin (K + 1) → ℝ) (p q : Fin (K + 1)) :
    softmax x p < softmax x q ↔ x p < x q := by
  unfold softmax
  have hD : 0 < ∑ j, Real.exp (x j) :=
    Finset.sum_pos (fun j _ => Real.exp_pos (x j)) Finset.univ_nonempty
  rw [div_lt_div_iff_of_pos_right hD]
  exact Real.exp_lt_exp

/-- **C7**, counterexample: with two overlapping `1×1` tiles at the same
pixel — tile A with raw scores `[0, 1]`, tile B with raw scores `[1, 0]`,
both with weight 1 — the finalized label at that pixel is class 0 (the
softmaxed contributions tie and `argmax` takes the first index), but scaling
tile A's raw scores by the positive constant 2 before the softmax changes
the label to class 1.  So the finalized label is not invariant under
positive pre-softmax rescaling of a tile's raw scores. -/
theorem c7_counterexample :
    save_as_tiff_label
      (merge_on_cpu
        (merge_on_cpu (initMerge 2)
          (fun k _ _ => (2 : ℝ) * ![0, 1] k) (fun _ _ => 1) 0 0 1 1)
        (fun k _ _ => ![(1 : ℝ), 0] k) (fun _ _ => 1) 0 0 1 1) 0 0
    ≠ save_as_tiff_label
      (merge_on_cpu
        (merge_on_cpu (initMerge 2)
          (fun k _ _ => ![(0 : ℝ), 1] k) (fun _ _ => 1) 0 0 1 1)
        (fun k _ _ => ![(1 : ℝ), 0] k) (fun _ _ => 1) 0 0 1 1) 0 0 := by
  have hreg : (0 : ℕ) ≤ 0 ∧ (0 : ℕ) < 0 + 1 ∧ (0 : ℕ) ≤ 0 ∧ (0 : ℕ) < 0 + 1 := by
    norm_num
  have hE1 : (0 : ℝ) < Real.exp 1 := Real.exp_pos 1
  have hE2 : (0 : ℝ) < Real.exp 2 := Real.exp_pos 2
  have hlt : Real.exp 1 < Real.exp 2 := Real.exp_lt_exp.mpr (by norm_num)
  have h1 : (0 : ℝ) < 1 + Real.exp 2 := by linarith
  have h2 : (0 : ℝ) < Real.exp 1 + 1 := by linarith
  have h3 : (0 : ℝ) < 1 + Real.exp 1 := by linarith
  unfold save_as_tiff_label
  rw [np_argmax_two, np_argmax_two]
  rw [merge_image_at _ _ _ _ _ _ _ _ _ _ hreg, merge_image_at _ _ _ _ _ _ _ _ _ _ hreg,
      merge_image_at _ _ _ _ _ _ _ _ _ _ hreg, merge_image_at _ _ _ _ _ _ _ _ _ _ hreg,
      merge_image_at _ _ _ _ _ _ _ _ _ _ hreg, merge_image_at _ _ _ _ _ _ _ _ _ _ hreg,
      merge_image_at _ _ _ _ _ _ _ _ _ _ hreg, merge_image_at _ _ _ _ _ _ _ _ _ _ hreg,
      merge_norm_at _ _ _ _ _ _ _ _ _ hreg, merge_norm_at _ _ _ _ _ _ _ _ _ hreg,
      merge_norm_at _ _ _ _ _ _ _ _ _ hreg, merge_norm_at _ _ _ _ _ _ _ _ _ hreg]
  simp only [initMerge, zero_add, mul_one, softmax_two,
    Matrix.cons_val_zero, Matrix.cons_val_one, Matrix.head_cons,
    mul_zero, Real.exp_zero]
  have hR : ¬ ((1 / (1 + Real.exp 1) + Real.exp 1 / (Real.exp 1 + 1)) / (1 + 1 + 1) <
      (Real.exp 1 / (1 + Real.exp 1) + 1 / (Real.exp 1 + 1)) / (1 + 1 + 1)) := by
    have heq : (1 / (1 + Real.exp 1) + Real.exp 1 / (Real.exp 1 + 1))
        = (Real.exp 1 / (1 + Real.exp 1) + 1 / (Real.exp 1 + 1)) := by
      ring
    rw [heq]
    exact lt_irrefl _
  have hL : (1 / (1 + Real.exp 2) + Real.exp 1 / (Real.exp 1 + 1)) / (1 + 1 + 1) <
      (Real.exp 2 / (1 + Real.exp 2) + 1 / (Real.exp 1 + 1)) / (1 + 1 + 1) := by
    have key : 1 / (1 + Real.exp 2) + Real.exp 1 / (Real.exp 1 + 1) <
        Real.exp 2 / (1 + Real.exp 2) + 1 / (Real.exp 1 + 1) := by
      rw [div_add_div _ _ (ne_of_gt h1) (ne_of_gt h2),
          div_add_div _ _ (ne_of_gt h1) (ne_of_gt h2),
          div_lt_div_iff₀ (by positivity) (by positivity)]
      nlinarith [mul_pos h1 h2, hlt, mul_pos (sub_pos.mpr hlt) (mul_pos h1 h2)]
    linarith
  rw [if_pos hL, if_neg hR]
  decide

/-- **C7** (amended): when the tile is the only contribution merged into the
canvas (so at every pixel no other tile's softmaxed scores are mixed in),
multiplying its raw per-pixel class scores by any positive constant before
the softmax-like normalization does not change the label produced at
finalize: softmax, the nonnegative blend weight and the positive normalizer
all preserve the per-pixel ordering of the class scores, so the arg-max
class index is unchanged at every pixel. -/
theorem c7_scaling_single_tile (K : ℕ) (out : Fin (K + 1) → ℕ → ℕ → ℝ)
    (win : ℕ → ℕ → ℝ) (x y pw ph : ℕ) (c : ℝ) (hc : 0 < c)
    (hw : ∀ a b, 0 ≤ win a b) (i j : ℕ) :
    save_as_tiff_label
        (merge_on_cpu (initMerge (K + 1)) (fun k a b => c * out k a b) win x y pw ph) i j
      = save_as_tiff_label
          (merge_on_cpu (initMerge (K + 1)) out win x y pw ph) i j := by
  unfold save_as_tiff_label
  apply np_argmax_congr
  intro p q
  by_cases hreg : y ≤ i ∧ i < y + ph ∧ x ≤ j ∧ j < x + pw
  · rw [merge_image_at _ _ _ _ _ _ _ _ _ _ hreg, merge_image_at _ _ _ _ _ _ _ _ _ _ hreg,
        merge_image_at _ _ _ _ _ _ _ _ _ _ hreg, merge_image_at _ _ _ _ _ _ _ _ _ _ hreg,
        merge_norm_at _ _ _ _ _ _ _ _ _ hreg, merge_norm_at _ _ _ _ _ _ _ _ _ hreg]
    simp only [initMerge, zero_add]
    have hw0 : 0 ≤ win (i - y) (j - x) := hw _ _
    have h1w : (0 : ℝ) < 1 + win (i - y) (j - x) := by linarith
    rw [div_lt_div_iff_of_pos_right h1w, div_lt_div_iff_of_pos_right h1w]
    rcases hw0.eq_or_lt with heq | hpos
    · rw [← heq, mul_zero, mul_zero, mul_zero, mul_zero]
    · rw [mul_lt_mul_right hpos, mul_lt_mul_right hpos, softmax_lt_iff, softmax_lt_iff]
      exact mul_lt_mul_left hc
  · rw [merge_image_out _ _ _ _ _ _ _ _ _ _ hreg, merge_image_out _ _ _ _ _ _ _ _ _ _ hreg,
        merge_image_out _ _ _ _ _ _ _ _ _ _ hreg, merge_image_out _ _ _ _ _ _ _ _ _ _ hreg,
        merge_norm_out _ _ _ _ _ _ _ _ _ hreg, merge_norm_out _ _ _ _ _ _ _ _ _ hreg]

theorem c7_scaling_single_tile_witness :
    (0 : ℝ) < 2 ∧
    save_as_tiff_label
        (merge_on_cpu (initMerge 1)
          (fun k a b => (2 : ℝ) * (fun (_ : Fin 1) (_ _ : ℕ) => (0 : ℝ)) k a b)
          (fun _ _ => 1) 0 0 1 1) 0 0
      = save_as_tiff_label
          (merge_on_cpu (initMerge 1) (fun (_ : Fin 1) (_ _ : ℕ) => (0 : ℝ))
            (fun _ _ => 1) 0 0 1 1) 0 0 :=
  ⟨by norm_num,
    c7_scaling_single_tile 0 _ _ 0 0 1 1 2 (by norm_num) (fun a b => by norm_num) 0 0⟩

theorem merge_norm_ge_one {K : ℕ} (st : MergeState K) (output : Fin K → ℕ → ℕ → ℝ)
    (win : ℕ → ℕ → ℝ) (x y pw ph : ℕ)
    (hwin : ∀ a b, 0 ≤ win a b) (i j : ℕ) (hst : 1 ≤ st.norm_mask i j) :
    1 ≤ (merge_on_cpu st output win x y pw ph).norm_mask i j := by
  unfold merge_on_cpu
  dsimp only
  split_ifs with h
  · have := hwin (i - y) (j - x)
    linarith
  · exact hst

theorem mergeBatch_norm_ge_one {K : ℕ} :
    ∀ (items : List (MergeItem K)) (st : MergeState K),
      (∀ it ∈ items, ∀ a b, 0 ≤ it.window a b) →
      ∀ i j : ℕ, 1 ≤ st.norm_mask i j → 1 ≤ (mergeBatch st items).norm_mask i j
  | [], _, _, _, _, hst => hst
  | it :: l, st, hws, i, j, hst => by
      have h1 : 1 ≤ (merge_on_cpu st it.output it.window it.x it.y it.pw it.ph).norm_mask i j :=
        merge_norm_ge_one st _ _ _ _ _ _ (hws it (List.mem_cons_self it l)) i j hst
      simpa [mergeBatch, List.foldl_cons] using
        mergeBatch_norm_ge_one l _ (fun z hz a b => hws z (List.mem_cons_of_mem _ hz) a b) i j h1

/-- **C8**: the normalizer buffer starts at 1 (not 0) everywhere; after any
run of merges whose blend windows are nonnegative it is still at least 1 at
every pixel — in particular at pixels never covered by any tile — so the
elementwise division at finalize never divides by zero.  Every window the
sampler can hand to the merge (any bank entry, or the small-asset all-ones
window) is indeed nonnegative. -/
theorem c8_normalizer_never_zero (K : ℕ) (items : List (MergeItem K))
    (hws : ∀ it ∈ items, ∀ a b, 0 ≤ it.window a b) (i j : ℕ) :
    (initMerge K).norm_mask i j = 1 ∧
    1 ≤ (mergeBatch (initMerge K) items).norm_mask i j ∧
    (mergeBatch (initMerge K) items).norm_mask i j ≠ 0 ∧
    (∀ (S : Cfg) (sel : WindowSel) (a b : ℕ), 0 ≤ windowOfSel S sel a b) := by
  have hge := mergeBatch_norm_ge_one items (initMerge K) hws i j (le_refl 1)
  refine ⟨rfl, hge, ?_, windowOfSel_nonneg⟩
  intro h0
  rw [h0] at hge
  norm_num at hge

theorem c8_normalizer_never_zero_witness :
    (initMerge 1).norm_mask 0 0 = 1 ∧
    1 ≤ (mergeBatch (initMerge 1)
      [⟨fun _ _ _ => 0, fun _ _ => 1, 0, 0, 1, 1⟩]).norm_mask 0 0 ∧
    (mergeBatch (initMerge 1)
      [⟨fun _ _ _ => 0, fun _ _ => 1, 0, 0, 1, 1⟩]).norm_mask 0 0 ≠ 0 :=
  have h := c8_normalizer_never_zero 1
    [⟨fun _ _ _ => 0, fun _ _ => 1, 0, 0, 1, 1⟩] (by
      intro it hit a b
      simp only [List.mem_singleton] at hit
      subst hit
      norm_num) 0 0
  ⟨h.1, h.2.1, h.2.2.1⟩

end Geo
